import Mathlib

/-!
Shallow embedding of `src/main.cpp` of the MingwDownloader repository.

Strings from the C++ side are modelled as `List Char` (the character
sequence of a `std::string`).  `std::string::find(tok) != npos` is the
infix relation `tok <:+: s`, and `s.rfind(tok, 0) == 0` is the
relation `tok <+: s`.  `std::filesystem::path` is modelled as a root
flag plus the list of path components; `lexically_normal` and
`operator/` follow the C++ lexical rules on that representation with the
generic separator `'/'`.  libarchive calls are abstracted: an archive
is a list of entries, each carrying its declared pathname and the
success/failure of its header write and of its data copy.  cURL
transfers are a list of progress ticks, each carrying the value of the
shared cancel flag at that poll and the size of the chunk that would
be accepted after it.
-/

set_option maxHeartbeats 1000000

def cs (s : String) : List Char := s.toList

/-- Models `s.find(tok) != std::string::npos` (main.cpp, `has_token`). -/
def has_token (s : List Char) (tok : List Char) : Bool := decide (tok <:+: s)

/-- Models `s.rfind(tok, 0) == 0`, i.e. `tok` occurs at position 0 of `s`. -/
def starts_with (s : List Char) (tok : List Char) : Bool := decide (tok <+: s)

inductive Arch | Any | I686 | X86_64
deriving DecidableEq

inductive MRT | Any | Posix | Win32 | Mcf
deriving DecidableEq

inductive EXC | Any | Seh | Dwarf
deriving DecidableEq

inductive CRT | Any | Ucrt | Msvcrt
deriving DecidableEq

inductive RT | Any | V13
deriving DecidableEq

structure AssetInfo where
  arch : Arch := Arch.Any
  mrt : MRT := MRT.Any
  exc : EXC := EXC.Any
  crt : CRT := CRT.Any
  rt : RT := RT.Any
deriving DecidableEq

/-- Embedding of `parse_asset_name` (main.cpp lines 52-76). -/
def parse_asset_name (name : List Char) : AssetInfo :=
  { arch :=
      if starts_with name (cs "i686-") then Arch.I686
      else if starts_with name (cs "x86_64-") then Arch.X86_64
      else Arch.Any
    mrt :=
      if has_token name (cs "-posix-") then MRT.Posix
      else if has_token name (cs "-win32-") then MRT.Win32
      else if has_token name (cs "-mcf-") then MRT.Mcf
      else MRT.Any
    exc :=
      if has_token name (cs "-seh-") then EXC.Seh
      else if has_token name (cs "-dwarf-") then EXC.Dwarf
      else EXC.Any
    crt :=
      if has_token name (cs "-ucrt-") then CRT.Ucrt
      else if has_token name (cs "-msvcrt-") then CRT.Msvcrt
      else CRT.Any
    rt :=
      if has_token name (cs "-rt_v13-") || has_token name (cs "-rt_v13.") then RT.V13
      else RT.Any }

structure Filters where
  arch : Arch := Arch.Any
  mrt : MRT := MRT.Any
  exc : EXC := EXC.Any
  crt : CRT := CRT.Any
  rt : RT := RT.Any
deriving DecidableEq

structure Asset where
  name : List Char
  size : Int := 0
  url : List Char := []
  info : AssetInfo := {}
deriving DecidableEq

structure Release where
  tag : List Char
  published_at : List Char := []
  assets : List Asset := []
deriving DecidableEq

/-- Embedding of `match_filter` (main.cpp lines 221-224): `want == T::Any || want == got`. -/
def match_filter {α : Type} [DecidableEq α] (anyv want got : α) : Bool :=
  decide (want = anyv) || decide (want = got)

/-- Embedding of `asset_matches` (main.cpp lines 226-232), with the global `gFilters`
made an explicit argument. -/
def asset_matches (f : Filters) (a : Asset) : Bool :=
  match_filter Arch.Any f.arch a.info.arch
  && match_filter MRT.Any f.mrt a.info.mrt
  && match_filter EXC.Any f.exc a.info.exc
  && match_filter CRT.Any f.crt a.info.crt
  && match_filter RT.Any f.rt a.info.rt

/-- The loop body of `rebuild_asset_list_for_release` (main.cpp lines
241-246): for `i` in `0..assets.size()`, push `i` into `gAssetIndexMap`
whenever `asset_matches` holds for `assets[i]`. -/
def asset_index_map (f : Filters) (assets : List Asset) : List Nat :=
  (List.range assets.length).filter fun i =>
    match assets[i]? with
    | some a => asset_matches f a
    | none => false

/-- Embedding of `rebuild_asset_list_for_release` (main.cpp lines 234-247), including
its bounds check on the release index. -/
def rebuild_asset_list_for_release (f : Filters) (releases : List Release)
    (r_idx : Int) : List Nat :=
  if r_idx < 0 ∨ (releases.length : Int) ≤ r_idx then []
  else
    match releases[r_idx.toNat]? with
    | some rel => asset_index_map f rel.assets
    | none => []

/-- Holds when `f2` narrows `f` in exactly one field: that field of `f` is `Any`
and the other four fields of `f2` agree with `f`. -/
def narrow_one (f f2 : Filters) : Prop :=
  (f.arch = Arch.Any ∧ f2.mrt = f.mrt ∧ f2.exc = f.exc ∧ f2.crt = f.crt ∧ f2.rt = f.rt)
  ∨ (f.mrt = MRT.Any ∧ f2.arch = f.arch ∧ f2.exc = f.exc ∧ f2.crt = f.crt ∧ f2.rt = f.rt)
  ∨ (f.exc = EXC.Any ∧ f2.arch = f.arch ∧ f2.mrt = f.mrt ∧ f2.crt = f.crt ∧ f2.rt = f.rt)
  ∨ (f.crt = CRT.Any ∧ f2.arch = f.arch ∧ f2.mrt = f.mrt ∧ f2.exc = f.exc ∧ f2.rt = f.rt)
  ∨ (f.rt = RT.Any ∧ f2.arch = f.arch ∧ f2.mrt = f.mrt ∧ f2.exc = f.exc ∧ f2.crt = f.crt)

instance {ε α : Type} [DecidableEq ε] [DecidableEq α] : DecidableEq (Except ε α) := fun
  | .ok a, .ok b =>
    if h : a = b then .isTrue (by rw [h]) else .isFalse (by intro hc; cases hc; exact h rfl)
  | .error a, .error b =>
    if h : a = b then .isTrue (by rw [h]) else .isFalse (by intro hc; cases hc; exact h rfl)
  | .ok _, .error _ => .isFalse (by intro hc; cases hc)
  | .error _, .ok _ => .isFalse (by intro hc; cases hc)

/-- A structured metadata value as produced by the external JSON
decoder (`nlohmann::json`). -/
inductive Json
  | null
  | bool (b : Bool)
  | num (n : Int)
  | str (s : List Char)
  | arr (elems : List Json)
  | obj (kvs : List (List Char × Json))

/-- Range-based iteration over a `nlohmann::json` value: an array
yields its elements, an object its mapped values, `null` nothing, and
any primitive yields itself once. -/
def Json.elements : Json → List Json
  | .arr es => es
  | .obj kvs => kvs.map Prod.snd
  | .null => []
  | j => [j]

/-- Models `j.contains(key)`: `false` on non-objects. -/
def jcontains (j : Json) (key : List Char) : Bool :=
  match j with
  | .obj kvs => (List.lookup key kvs).isSome
  | _ => false

/-- Models `j[key]` read access on an object (only used after `contains`). -/
def jget (j : Json) (key : List Char) : Json :=
  match j with
  | .obj kvs => (List.lookup key kvs).getD Json.null
  | _ => Json.null

def Json.is_arr : Json → Bool
  | .arr _ => true
  | _ => false

/-- Models `j.value(key, "")`: the default on a missing key, the stored string
on a string value, and a thrown `type_error` (modelled as `.error`) when
the stored value is not a string or `j` is not an object. -/
def jvalueStr (j : Json) (key : List Char) : Except Unit (List Char) :=
  match j with
  | .obj kvs =>
    match List.lookup key kvs with
    | none => .ok []
    | some (.str s) => .ok s
    | some _ => .error ()
  | _ => .error ()

/-- Models `j.value(key, 0LL)`: as `jvalueStr` but for integer values. -/
def jvalueInt (j : Json) (key : List Char) : Except Unit Int :=
  match j with
  | .obj kvs =>
    match List.lookup key kvs with
    | none => .ok 0
    | some (.num n) => .ok n
    | some _ => .error ()
  | _ => .error ()

def exOk {α : Type} : Except Unit α → Bool
  | .ok _ => true
  | .error _ => false

/-- The body of the inner asset loop of `parse_releases` (main.cpp lines
188-192): read the three fields, derive the attribute info. Any field
read may throw. -/
def processAsset (a : Json) : Except Unit Asset := do
  let name ← jvalueStr a (cs "name")
  let size ← jvalueInt a (cs "size")
  let url ← jvalueStr a (cs "browser_download_url")
  pure { name := name, size := size, url := url, info := parse_asset_name name }

/-- The inner asset loop of `parse_releases` (main.cpp lines 187-196):
assets with an empty name are dropped; a thrown field read aborts. -/
def assetLoop : List Json → List Asset → Except Unit (List Asset)
  | [], acc => .ok acc
  | a :: rest, acc => do
    let asset ← processAsset a
    assetLoop rest (if asset.name ≠ [] then acc ++ [asset] else acc)

/-- One iteration of the release loop of `parse_releases` (main.cpp
lines 181-197): read tag and timestamp, then run the asset loop when an
`assets` array is present. -/
def processRelease (r : Json) : Except Unit Release := do
  let tag ← jvalueStr r (cs "tag_name")
  let pub ← jvalueStr r (cs "published_at")
  let assets ←
    if jcontains r (cs "assets") && (jget r (cs "assets")).is_arr then
      assetLoop (jget r (cs "assets")).elements []
    else
      pure []
  pure { tag := tag, published_at := pub, assets := assets }

/-- The release loop of `parse_releases` (main.cpp lines 181-201),
threading the growing `gReleases` vector: a thrown iteration is caught
by the surrounding `catch (...)` and leaves the vector as accumulated
so far. Releases with an empty tag are dropped. -/
def relLoop : List Json → List Release → Bool × List Release
  | [], acc => (true, acc)
  | r :: rest, acc =>
    match processRelease r with
    | .error _ => (false, acc)
    | .ok rel => relLoop rest (if rel.tag ≠ [] then acc ++ [rel] else acc)

/-- The releases that the loop keeps from a list of decodable records. -/
def okReleases (es : List Json) : List Release :=
  es.filterMap fun r =>
    match processRelease r with
    | .ok rel => if rel.tag ≠ [] then some rel else none
    | .error _ => none

/-- Embedding of `parse_releases` (main.cpp lines 175-207).  The input is `none`
when `json::parse(data)` itself throws (malformed payload text) and
`some j` when it yields the value `j`.  the first argument is the previous
content of the global `gReleases`; the function clears it first, so the result
never depends on it. -/
def parse_releases (_old : List Release) (input : Option Json) : Bool × List Release :=
  match input with
  | none => (false, [])
  | some j => relLoop j.elements []

/-- Models `std::filesystem::path`, reduced to what the extraction code uses:
whether the path is absolute plus its list of components. -/
structure FsPath where
  abs : Bool
  comps : List (List Char)
deriving DecidableEq

/-- One step of `lexically_normal`: drop `"."`, let `".."` cancel a
preceding normal component (or survive at the front of a relative
path, or vanish at the root of an absolute one). -/
def normStep (abs : Bool) (acc : List (List Char)) (c : List Char) : List (List Char) :=
  if c = cs "." then acc
  else if c = cs ".." then
    match acc.getLast? with
    | none => if abs then [] else [c]
    | some last => if last = cs ".." then acc ++ [c] else acc.dropLast
  else acc ++ [c]

/-- Models `p.lexically_normal()`: fold the components through `normStep`; a
non-empty relative path whose components all cancel renders as `"."`. -/
def lexically_normal (p : FsPath) : FsPath :=
  let r := p.comps.foldl (normStep p.abs) []
  if !p.abs && r.isEmpty && !p.comps.isEmpty then ⟨p.abs, [cs "."]⟩ else ⟨p.abs, r⟩

/-- Models `p.native()`: components joined by the separator, with a leading
separator for absolute paths. -/
def render (p : FsPath) : List Char :=
  (if p.abs then ['/'] else []) ++ List.intercalate ['/'] p.comps

/-- Models `base / rel`: an absolute right operand replaces the left one. -/
def pjoin (base rel : FsPath) : FsPath :=
  if rel.abs then rel else ⟨base.abs, base.comps ++ rel.comps⟩

/-- Embedding of `safe_join` (main.cpp lines 485-497).  The C++ test
`outStr.size() < baseStr.size() || outStr.compare(0, baseStr.size(), baseStr) != 0`
holds exactly when the rendered normalized base is NOT a string prefix
of the rendered normalized output; that case throws (here: `none`). -/
def safe_join (base rel : FsPath) : Option FsPath :=
  let out := lexically_normal (pjoin base rel)
  if render (lexically_normal base) <+: render out then some out else none

/-- Modelled from the spec: an archive entry path "resolves inside the
destination root" when the normalized root is a component-wise prefix
of it (directory containment, the property the spec's safety sentence
is about). -/
def resolves_inside (root p : FsPath) : Bool :=
  (root.abs == p.abs) && decide (root.comps <+: p.comps)

/-- One archive entry as the extraction loop sees it: its declared
pathname (empty pathname = relative with no components), whether
`archive_write_header` succeeds for it, and whether its data copy
(`copy_archive_data`) succeeds. -/
structure AEntry where
  epath : FsPath
  headerOk : Bool
  dataOk : Bool
deriving DecidableEq

inductive ExtractErr | traversal | dataCopy
deriving DecidableEq

structure ExtractOutcome where
  err : Option ExtractErr
  done : Nat
  written : List FsPath
deriving DecidableEq

/-- The entry loop of `extract_archive_to_dir` (main.cpp lines
540-578): skip empty and absolute pathnames; a failed `safe_join`
throws (caught as a fatal error, nothing further written); a failed
header write skips the entry's data and continues; a failed data copy
aborts; every non-skipped, non-fatal entry bumps `doneCount`.
`written` collects the target paths whose header write succeeded (the
disk sink created the file there). -/
def extract_loop (base : FsPath) : List AEntry → Nat → List FsPath → ExtractOutcome
  | [], done, written => ⟨none, done, written⟩
  | e :: rest, done, written =>
    if e.epath.comps.isEmpty && !e.epath.abs then
      extract_loop base rest done written
    else if e.epath.abs then
      extract_loop base rest done written
    else
      match safe_join base e.epath with
      | none => ⟨some ExtractErr.traversal, done, written⟩
      | some out =>
        if e.headerOk then
          if e.dataOk then extract_loop base rest (done + 1) (written ++ [out])
          else ⟨some ExtractErr.dataCopy, done, written ++ [out]⟩
        else extract_loop base rest (done + 1) written

/-- Embedding of `extract_archive_to_dir` (main.cpp lines 499-596) on an archive
that opens cleanly, starting from zero completed entries. -/
def extract_archive_to_dir (base : FsPath) (entries : List AEntry) : ExtractOutcome :=
  extract_loop base entries 0 []

/-- The counting loop of `count_archive_entries` (main.cpp lines
395-400) on an archive that opens and reaches `ARCHIVE_EOF` cleanly:
every header is counted, data skipped. -/
def count_archive_entries : List AEntry → Nat
  | [] => 0
  | _ :: rest => count_archive_entries rest + 1

/-- An entry the extraction loop skips without bumping `doneCount`:
empty pathname or absolute pathname. -/
def entry_skipped (e : AEntry) : Bool :=
  (e.epath.comps.isEmpty && !e.epath.abs) || e.epath.abs

/-- Models `awake_update_extract_progress` (main.cpp lines 351-363): the
display percentage `done / total * 100` (0 when the total is unknown),
as an exact natural number — exact because the claims only evaluate it
where `total` divides `done * 100`. -/
def extract_percent (done total : Nat) : Nat :=
  if total = 0 then 0 else done * 100 / total

inductive CurlCode | ok | abortedByCallback | writeError
deriving DecidableEq

/-- One progress poll of a transfer: the value the shared cancel flag
has when `progress_callback` (main.cpp lines 365-375) runs, and the
size of the chunk accepted after that poll if it returns 0. -/
structure Tick where
  cancel : Bool
  chunk : Nat
deriving DecidableEq

/-- The cURL transfer loop: each tick first consults the cancel flag
(`if (gCancel) return 1;` aborts the transfer), otherwise the chunk is
written to the destination file. Returns bytes written and the final
transfer code. -/
def run_transfer : List Tick → Nat → Nat × CurlCode
  | [], w => (w, CurlCode.ok)
  | t :: rest, w =>
    if t.cancel then (w, CurlCode.abortedByCallback)
    else run_transfer rest (w + t.chunk)

/-- The state of the destination file after `download_file`: `none`
when the file could not be opened, otherwise the byte count it holds. -/
structure DownloadOutcome where
  res : CurlCode
  file : Option Nat
deriving DecidableEq

/-- Embedding of `download_file` (main.cpp lines 624-658) up to the extraction
stage: open the destination (truncating), run the transfer, store the
result.  The file is closed and left on disk whatever the outcome —
there is no cleanup path. -/
def download_file (openOk : Bool) (ticks : List Tick) : DownloadOutcome :=
  if openOk then
    let r := run_transfer ticks 0
    ⟨r.2, some r.1⟩
  else ⟨CurlCode.writeError, none⟩

/-- Destination root used by the C1 counterexample: the directory `out`. -/
def c1_base : FsPath := ⟨false, [cs "out"]⟩

/-- Declared entry path of the C1 counterexample: `../out2/evil`. -/
def c1_rel : FsPath := ⟨false, [cs "..", cs "out2", cs "evil"]⟩

def c1_entry : AEntry := ⟨c1_rel, true, true⟩

/-- Where the C1 counterexample entry is written: `out2/evil`, a sibling
of the destination root whose name extends the root's name. -/
def c1_out : FsPath := ⟨false, [cs "out2", cs "evil"]⟩

def c2_j1 : Json := Json.obj [(cs "tag_name", Json.str (cs "v1"))]

/-- A record whose `tag_name` holds a number: `value("tag_name", "")`
throws `type_error` on it. -/
def c2_j2 : Json := Json.obj [(cs "tag_name", Json.num 13)]

def c2_j3 : Json := Json.obj [(cs "tag_name", Json.str (cs "v3"))]

def c2_rel1 : Release := ⟨cs "v1", [], []⟩

def c2_old : Release := ⟨cs "old", [], []⟩

def c2_payload : Json := Json.arr [c2_j1, c2_j2, c2_j3]

/-- An archive whose single entry declares an absolute path. -/
def c9_entry : AEntry := ⟨⟨true, [cs "abs"]⟩, true, true⟩

def c9_base : FsPath := ⟨false, [cs "out"]⟩

/-- A name cannot start with both architecture tokens: their first
characters differ. -/
theorem not_both_arch_pfx (name : List Char) :
    ¬(starts_with name (cs "i686-") = true ∧ starts_with name (cs "x86_64-") = true) := by
  rintro ⟨h1, h2⟩
  simp only [starts_with, decide_eq_true_eq] at h1 h2
  obtain ⟨a, ha⟩ := h1
  obtain ⟨b, hb⟩ := h2
  rw [← ha] at hb
  simp [cs] at hb

/-- Claim C3: the architecture field is decided by prefix match only: a
name starting with `"i686-"` yields `I686`, a name starting with
`"x86_64-"` yields `X86_64` (hence never `I686`, whatever appears later
in the name), and any other name yields `Any`. -/
theorem claim_arch_prefix_only (name : List Char) :
    ((parse_asset_name name).arch = Arch.I686 ↔ starts_with name (cs "i686-") = true)
  ∧ ((parse_asset_name name).arch = Arch.X86_64 ↔ starts_with name (cs "x86_64-") = true)
  ∧ ((parse_asset_name name).arch = Arch.Any ↔
      (starts_with name (cs "i686-") = false ∧ starts_with name (cs "x86_64-") = false)) := by
  rcases h1 : starts_with name (cs "i686-") with _ | _
  · rcases h2 : starts_with name (cs "x86_64-") with _ | _
    · simp [parse_asset_name, h1, h2]
    · simp [parse_asset_name, h1, h2]
  · have h2 : starts_with name (cs "x86_64-") = false := by
      rcases h2 : starts_with name (cs "x86_64-") with _ | _
      · rfl
      · exact absurd ⟨h1, h2⟩ (not_both_arch_pfx name)
    simp [parse_asset_name, h1, h2]

/-- Claim C4: the attribute parser is total, and a name with no
recognized architecture prefix and none of the recognized thread-model,
exception-model, C-runtime or runtime-version tokens parses to the
all-`Any` attribute set. -/
theorem claim_no_tokens_all_any (name : List Char)
    (h1 : starts_with name (cs "i686-") = false)
    (h2 : starts_with name (cs "x86_64-") = false)
    (h3 : has_token name (cs "-posix-") = false)
    (h4 : has_token name (cs "-win32-") = false)
    (h5 : has_token name (cs "-mcf-") = false)
    (h6 : has_token name (cs "-seh-") = false)
    (h7 : has_token name (cs "-dwarf-") = false)
    (h8 : has_token name (cs "-ucrt-") = false)
    (h9 : has_token name (cs "-msvcrt-") = false)
    (h10 : has_token name (cs "-rt_v13-") = false)
    (h11 : has_token name (cs "-rt_v13.") = false) :
    parse_asset_name name =
      { arch := Arch.Any, mrt := MRT.Any, exc := EXC.Any, crt := CRT.Any, rt := RT.Any } := by
  simp [parse_asset_name, h1, h2, h3, h4, h5, h6, h7, h8, h9, h10, h11]

theorem claim_no_tokens_all_any_witness :
    starts_with (cs "gcc.zip") (cs "i686-") = false
  ∧ has_token (cs "gcc.zip") (cs "-posix-") = false
  ∧ parse_asset_name (cs "gcc.zip") =
      { arch := Arch.Any, mrt := MRT.Any, exc := EXC.Any, crt := CRT.Any, rt := RT.Any } :=
  ⟨by decide, by decide,
    claim_no_tokens_all_any (cs "gcc.zip") (by decide) (by decide) (by decide) (by decide)
      (by decide) (by decide) (by decide) (by decide) (by decide) (by decide) (by decide)⟩

/-- An asset matches the filters exactly when every one of the five
fields is unconstrained or agrees. -/
theorem asset_matches_true_iff (f : Filters) (a : Asset) :
    asset_matches f a = true ↔
      ((f.arch = Arch.Any ∨ f.arch = a.info.arch)
        ∧ (f.mrt = MRT.Any ∨ f.mrt = a.info.mrt)
        ∧ (f.exc = EXC.Any ∨ f.exc = a.info.exc)
        ∧ (f.crt = CRT.Any ∨ f.crt = a.info.crt)
        ∧ (f.rt = RT.Any ∨ f.rt = a.info.rt)) := by
  simp [asset_matches, match_filter, Bool.and_eq_true, Bool.or_eq_true, and_assoc]

/-- Claim C5: an asset matches the selection iff, for each of the five
fields, the selection's value is `Any` or equals the asset's parsed
value — a conjunction across all five fields. -/
theorem claim_asset_matches_conjunction (f : Filters) (a : Asset) :
    asset_matches f a = true ↔
      ((f.arch = Arch.Any ∨ f.arch = a.info.arch)
        ∧ (f.mrt = MRT.Any ∨ f.mrt = a.info.mrt)
        ∧ (f.exc = EXC.Any ∨ f.exc = a.info.exc)
        ∧ (f.crt = CRT.Any ∨ f.crt = a.info.crt)
        ∧ (f.rt = RT.Any ∨ f.rt = a.info.rt)) :=
  asset_matches_true_iff f a

/-- Narrowing one field can only shrink the set of matching assets. -/
theorem narrow_match_mono {f f2 : Filters} (h : narrow_one f f2) (a : Asset)
    (hm : asset_matches f2 a = true) : asset_matches f a = true := by
  rw [asset_matches_true_iff] at hm ⊢
  obtain ⟨m1, m2, m3, m4, m5⟩ := hm
  rcases h with ⟨e, r2, r3, r4, r5⟩ | ⟨e, r1, r3, r4, r5⟩ | ⟨e, r1, r2, r4, r5⟩
    | ⟨e, r1, r2, r3, r5⟩ | ⟨e, r1, r2, r3, r4⟩
  · exact ⟨Or.inl e, r2 ▸ m2, r3 ▸ m3, r4 ▸ m4, r5 ▸ m5⟩
  · exact ⟨r1 ▸ m1, Or.inl e, r3 ▸ m3, r4 ▸ m4, r5 ▸ m5⟩
  · exact ⟨r1 ▸ m1, r2 ▸ m2, Or.inl e, r4 ▸ m4, r5 ▸ m5⟩
  · exact ⟨r1 ▸ m1, r2 ▸ m2, r3 ▸ m3, Or.inl e, r5 ▸ m5⟩
  · exact ⟨r1 ▸ m1, r2 ▸ m2, r3 ▸ m3, r4 ▸ m4, Or.inl e⟩

/-- Claim C6: replacing `Any` with a concrete value in a single filter
field (the other four unchanged) never increases the filtered index:
the narrowed result is a subset, and no longer than, the original. -/
theorem claim_narrow_monotone (f f2 : Filters) (assets : List Asset)
    (h : narrow_one f f2) :
    (asset_index_map f2 assets).length ≤ (asset_index_map f assets).length
  ∧ asset_index_map f2 assets ⊆ asset_index_map f assets := by
  have hs : List.Sublist (asset_index_map f2 assets) (asset_index_map f assets) := by
    unfold asset_index_map
    refine List.monotone_filter_right _ ?_
    intro i hi
    cases hg : assets[i]? with
    | none => rw [hg] at hi; simp at hi
    | some a => rw [hg] at hi; exact narrow_match_mono h a hi
  exact ⟨hs.length_le, hs.subset⟩

theorem claim_narrow_monotone_witness :
    narrow_one {} ({ arch := Arch.I686 } : Filters)
  ∧ (asset_index_map { arch := Arch.I686 }
        [{ name := cs "x86_64-a", info := parse_asset_name (cs "x86_64-a") }]).length
      ≤ (asset_index_map {}
        [{ name := cs "x86_64-a", info := parse_asset_name (cs "x86_64-a") }]).length :=
  ⟨Or.inl ⟨rfl, rfl, rfl, rfl, rfl⟩,
    (claim_narrow_monotone {} { arch := Arch.I686 }
      [{ name := cs "x86_64-a", info := parse_asset_name (cs "x86_64-a") }]
      (Or.inl ⟨rfl, rfl, rfl, rfl, rfl⟩)).1⟩

/-- A successful `safe_join` guarantees exactly the rendered-string
prefix property that the C++ check tests. -/
theorem safe_join_pfx {base rel out : FsPath} (h : safe_join base rel = some out) :
    render (lexically_normal base) <+: render out := by
  simp only [safe_join] at h
  split at h
  · rename_i hc
    injection h with h2
    subst h2
    exact hc
  · simp at h

/-- Every path the extraction loop writes passes the rendered-prefix
check against the normalized destination root. -/
theorem extract_written_pfx (base : FsPath) :
    ∀ (es : List AEntry) (done : Nat) (w : List FsPath),
      (∀ p ∈ w, render (lexically_normal base) <+: render p) →
      ∀ p ∈ (extract_loop base es done w).written,
        render (lexically_normal base) <+: render p := by
  intro es
  induction es with
  | nil => intro done w hw p hp; exact hw p hp
  | cons e rest ih =>
    intro done w hw p hp
    simp only [extract_loop] at hp
    split at hp
    · exact ih done w hw p hp
    · split at hp
      · exact ih done w hw p hp
      · split at hp
        · exact hw p hp
        · rename_i out hj
          split at hp
          · split at hp
            · refine ih (done + 1) (w ++ [out]) ?_ p hp
              intro q hq
              rcases List.mem_append.1 hq with hq | hq
              · exact hw q hq
              · rcases List.mem_singleton.1 hq with rfl
                exact safe_join_pfx hj
            · rcases List.mem_append.1 hp with hq | hq
              · exact hw p hq
              · rcases List.mem_singleton.1 hq with rfl
                exact safe_join_pfx hj
          · exact ih (done + 1) w hw p hp

/-- Claim C1 (amended): an absolute declared path is silently skipped
and extraction continues; a relative declared path whose normalized
join fails the rendered-string prefix check against the normalized
destination root aborts the whole extraction with the path-traversal
error; and every path actually written has the normalized root's
rendering as a string prefix.  That last guarantee is strictly weaker
than directory containment — see the counterexample. -/
theorem claim_extraction_path_policy (base : FsPath) (entries : List AEntry) :
    (∀ p ∈ (extract_archive_to_dir base entries).written,
        render (lexically_normal base) <+: render p)
  ∧ (∀ (e : AEntry) (rest : List AEntry) (done : Nat) (w : List FsPath),
        e.epath.abs = true →
        extract_loop base (e :: rest) done w = extract_loop base rest done w)
  ∧ (∀ (e : AEntry) (rest : List AEntry) (done : Nat) (w : List FsPath),
        e.epath.abs = false → e.epath.comps ≠ [] →
        safe_join base e.epath = none →
        extract_loop base (e :: rest) done w = ⟨some ExtractErr.traversal, done, w⟩) := by
  refine ⟨?_, ?_, ?_⟩
  · intro p hp
    exact extract_written_pfx base entries 0 [] (by simp) p hp
  · intro e rest done w habs
    have h1 : (e.epath.comps.isEmpty && !e.epath.abs) = false := by simp [habs]
    simp [extract_loop, h1, habs]
  · intro e rest done w habs hne hj
    have hc : e.epath.comps.isEmpty = false := by
      rcases hcc : e.epath.comps with _ | ⟨c, cl⟩
      · exact absurd hcc hne
      · simp [hcc]
    simp [extract_loop, habs, hc, hj]

theorem claim_extraction_path_policy_witness :
    extract_loop ⟨false, [cs "out"]⟩ [⟨⟨false, [cs "..", cs "evil"]⟩, true, true⟩] 0 []
      = ⟨some ExtractErr.traversal, 0, []⟩ :=
  (claim_extraction_path_policy ⟨false, [cs "out"]⟩ []).2.2
    ⟨⟨false, [cs "..", cs "evil"]⟩, true, true⟩ [] 0 [] rfl (by decide) (by decide)

/-- Claim C1 as stated is false on the code: the entry `../out2/evil`
against destination root `out` joins and normalizes to `out2/evil`,
which resolves outside the destination root, yet extraction neither
aborts nor skips the entry — the file is written there, because the
string `out` is a prefix of the string `out2/evil`. -/
theorem claim_traversal_containment_cex :
    extract_archive_to_dir c1_base [c1_entry] = ⟨none, 1, [c1_out]⟩
  ∧ lexically_normal (pjoin c1_base c1_rel) = c1_out
  ∧ resolves_inside (lexically_normal c1_base) c1_out = false := by decide

/-- Claim C8: a failed header write is entry-local — the entry's data
is skipped, nothing is written for it, `doneCount` still advances and
extraction continues with the next entry; a failure while copying a
successfully-headed entry's data aborts the whole extraction with an
error at once. -/
theorem claim_header_data_failure (base path : FsPath) (rest : List AEntry)
    (done : Nat) (w : List FsPath) (out : FsPath) (d : Bool)
    (habs : path.abs = false) (hne : path.comps ≠ [])
    (hj : safe_join base path = some out) :
    extract_loop base (⟨path, false, d⟩ :: rest) done w = extract_loop base rest (done + 1) w
  ∧ extract_loop base (⟨path, true, false⟩ :: rest) done w
      = ⟨some ExtractErr.dataCopy, done, w ++ [out]⟩ := by
  have hc : path.comps.isEmpty = false := by
    rcases hcc : path.comps with _ | ⟨c, cl⟩
    · exact absurd hcc hne
    · simp [hcc]
  constructor
  · simp [extract_loop, habs, hc, hj]
  · simp [extract_loop, habs, hc, hj]

theorem claim_header_data_failure_witness :
    extract_loop ⟨false, [cs "out"]⟩ [⟨⟨false, [cs "a"]⟩, false, false⟩] 0 []
      = extract_loop ⟨false, [cs "out"]⟩ [] 1 []
  ∧ extract_loop ⟨false, [cs "out"]⟩ [⟨⟨false, [cs "a"]⟩, true, false⟩] 0 []
      = ⟨some ExtractErr.dataCopy, 0, [⟨false, [cs "out", cs "a"]⟩]⟩ := by
  have h := claim_header_data_failure ⟨false, [cs "out"]⟩ ⟨false, [cs "a"]⟩ [] 0 []
      ⟨false, [cs "out", cs "a"]⟩ false rfl (by decide) (by decide)
  simpa using h

theorem count_eq_length (es : List AEntry) : count_archive_entries es = es.length := by
  induction es with
  | nil => rfl
  | cons e rest ih => simp [count_archive_entries, ih]

/-- Unfolding of one non-skipped loop iteration whose `safe_join`
throws: the whole extraction fails with the traversal error. -/
theorem extract_loop_cons_traversal (base : FsPath) (e : AEntry) (rest : List AEntry)
    (done : Nat) (w : List FsPath)
    (habs : e.epath.abs = false) (hc : e.epath.comps.isEmpty = false)
    (hj : safe_join base e.epath = none) :
    extract_loop base (e :: rest) done w = ⟨some ExtractErr.traversal, done, w⟩ := by
  simp [extract_loop, habs, hc, hj]

/-- Unfolding of one non-skipped loop iteration whose `safe_join`
succeeds. -/
theorem extract_loop_cons_nonskip (base : FsPath) (e : AEntry) (rest : List AEntry)
    (done : Nat) (w : List FsPath) (out : FsPath)
    (habs : e.epath.abs = false) (hc : e.epath.comps.isEmpty = false)
    (hj : safe_join base e.epath = some out) :
    extract_loop base (e :: rest) done w =
      if e.headerOk then
        if e.dataOk then extract_loop base rest (done + 1) (w ++ [out])
        else ⟨some ExtractErr.dataCopy, done, w ++ [out]⟩
      else extract_loop base rest (done + 1) w := by
  simp [extract_loop, habs, hc, hj]

/-- When no entry is skipped and the loop ends without error, every
entry bumped the completed counter exactly once. -/
theorem extract_done_all (base : FsPath) :
    ∀ (es : List AEntry) (done : Nat) (w : List FsPath),
      (∀ e ∈ es, entry_skipped e = false) →
      (extract_loop base es done w).err = none →
      (extract_loop base es done w).done = done + es.length := by
  intro es
  induction es with
  | nil => intro done w _ _; simp [extract_loop]
  | cons e rest ih =>
    intro done w hns herr
    have he : entry_skipped e = false := hns e (List.mem_cons_self e rest)
    have hrest : ∀ x ∈ rest, entry_skipped x = false :=
      fun x hx => hns x (List.mem_cons_of_mem e hx)
    simp only [entry_skipped, Bool.or_eq_false_iff] at he
    obtain ⟨h1, h2⟩ := he
    rw [h2] at h1
    simp only [Bool.not_false, Bool.and_true] at h1
    cases hj : safe_join base e.epath with
    | none =>
      rw [extract_loop_cons_traversal base e rest done w h2 h1 hj] at herr
      simp at herr
    | some out =>
      rw [extract_loop_cons_nonskip base e rest done w out h2 h1 hj] at herr ⊢
      by_cases hh : e.headerOk = true
      · rw [if_pos hh] at herr ⊢
        by_cases hd : e.dataOk = true
        · rw [if_pos hd] at herr ⊢
          rw [ih (done + 1) (w ++ [out]) hrest herr]
          simp only [List.length_cons]
          omega
        · rw [if_neg hd] at herr
          simp at herr
      · rw [if_neg hh] at herr ⊢
        rw [ih (done + 1) w hrest herr]
        simp only [List.length_cons]
        omega

/-- Claim C9 (amended): the counting pass returns the number of entries
of the archive; a successful extraction emits one entry-completed
increment per non-skipped entry (entries with empty or absolute
declared paths are skipped without an increment), so when no entry is
skipped the completed count equals the counted total and the final
reported progress is 100 percent. -/
theorem claim_count_extract_progress (base : FsPath) (entries : List AEntry)
    (hok : (extract_archive_to_dir base entries).err = none)
    (hns : ∀ e ∈ entries, entry_skipped e = false)
    (hne : entries ≠ []) :
    count_archive_entries entries = entries.length
  ∧ (extract_archive_to_dir base entries).done = count_archive_entries entries
  ∧ extract_percent (extract_archive_to_dir base entries).done
      (count_archive_entries entries) = 100 := by
  have hc := count_eq_length entries
  have hd := extract_done_all base entries 0 [] hns hok
  have hdone : (extract_archive_to_dir base entries).done = entries.length := by
    simp only [extract_archive_to_dir]
    omega
  have hL : entries.length ≠ 0 := by
    intro h0
    exact hne (List.length_eq_zero.1 h0)
  refine ⟨hc, by rw [hdone, hc], ?_⟩
  rw [hdone, hc, extract_percent, if_neg hL]
  exact Nat.mul_div_cancel_left 100 (Nat.pos_of_ne_zero hL)

theorem claim_count_extract_progress_witness :
    count_archive_entries [(⟨⟨false, [cs "a"]⟩, true, true⟩ : AEntry)] = 1
  ∧ (extract_archive_to_dir ⟨false, [cs "out"]⟩ [⟨⟨false, [cs "a"]⟩, true, true⟩]).done = 1
  ∧ extract_percent
      (extract_archive_to_dir ⟨false, [cs "out"]⟩ [⟨⟨false, [cs "a"]⟩, true, true⟩]).done
      (count_archive_entries [(⟨⟨false, [cs "a"]⟩, true, true⟩ : AEntry)]) = 100 := by
  have h := claim_count_extract_progress ⟨false, [cs "out"]⟩
      [⟨⟨false, [cs "a"]⟩, true, true⟩] (by decide) (by decide) (by decide)
  simpa using h

/-- Claim C9 as stated is false on the code: a valid archive whose
single entry declares an absolute path counts as 1 entry, extraction
succeeds, but it emits 0 entry-completed increments and the final
reported progress is 0 percent, not 100. -/
theorem claim_count_extract_progress_cex :
    count_archive_entries [c9_entry] = 1
  ∧ extract_archive_to_dir c9_base [c9_entry] = ⟨none, 0, []⟩
  ∧ extract_percent 0 1 = 0 := by decide

/-- A transfer whose cancel flag is first observed set at some poll
stops right there: the chunks before that poll are on disk, nothing
after it is accepted, and the transfer code is the abort code. -/
theorem run_transfer_cancel (sz : Nat) (post : List Tick) :
    ∀ (pre : List Tick), (∀ t ∈ pre, t.cancel = false) → ∀ (w : Nat),
      run_transfer (pre ++ ⟨true, sz⟩ :: post) w
        = (w + (pre.map Tick.chunk).sum, CurlCode.abortedByCallback) := by
  intro pre
  induction pre with
  | nil => intro _ w; simp [run_transfer]
  | cons t pre ih =>
    intro h w
    have ht : t.cancel = false := h t (List.mem_cons_self t pre)
    rw [List.cons_append, run_transfer, ht]
    simp only [Bool.false_eq_true, if_false]
    rw [ih (fun x hx => h x (List.mem_cons_of_mem t hx)) (w + t.chunk)]
    simp [Nat.add_assoc]

/-- Claim C7: the cancel flag is consulted at each progress poll before
a further chunk is accepted; once it is set the transfer aborts at the
next poll without completing, the result is a non-success outcome, and
the partially written destination file (the bytes accepted before the
abort) is left on disk, not cleaned up. -/
theorem claim_cancel_aborts (pre post : List Tick) (sz : Nat)
    (hpre : ∀ t ∈ pre, t.cancel = false) :
    (download_file true (pre ++ ⟨true, sz⟩ :: post)).res = CurlCode.abortedByCallback
  ∧ (download_file true (pre ++ ⟨true, sz⟩ :: post)).res ≠ CurlCode.ok
  ∧ (download_file true (pre ++ ⟨true, sz⟩ :: post)).file
      = some ((pre.map Tick.chunk).sum) := by
  have h := run_transfer_cancel sz post pre hpre 0
  simp [download_file, h]

theorem claim_cancel_aborts_witness :
    (download_file true [⟨false, 10⟩, ⟨true, 5⟩, ⟨false, 7⟩]).res = CurlCode.abortedByCallback
  ∧ (download_file true [⟨false, 10⟩, ⟨true, 5⟩, ⟨false, 7⟩]).res ≠ CurlCode.ok
  ∧ (download_file true [⟨false, 10⟩, ⟨true, 5⟩, ⟨false, 7⟩]).file = some 10 := by
  have h := claim_cancel_aborts [⟨false, 10⟩] [⟨false, 7⟩] 5 (by decide)
  simpa using h

/-- The release loop over a run of decodable records followed by an
undecodable one stops at the failure, keeping exactly the releases
accumulated from the run. -/
theorem relLoop_good_append (bad : Json) (rest : List Json)
    (hb : exOk (processRelease bad) = false) :
    ∀ (good : List Json), (∀ g ∈ good, exOk (processRelease g) = true) →
      ∀ (acc : List Release),
        relLoop (good ++ bad :: rest) acc = (false, acc ++ okReleases good) := by
  intro good
  induction good with
  | nil =>
    intro _ acc
    cases hpb : processRelease bad with
    | error u => simp [relLoop, hpb, okReleases]
    | ok rel => rw [hpb] at hb; simp [exOk] at hb
  | cons g good ih =>
    intro hg acc
    have hgo : exOk (processRelease g) = true := hg g (List.mem_cons_self g good)
    cases hpg : processRelease g with
    | error u => rw [hpg] at hgo; simp [exOk] at hgo
    | ok rel =>
      rw [List.cons_append, relLoop]
      simp only [hpg]
      rw [ih (fun x hx => hg x (List.mem_cons_of_mem g hx))]
      by_cases ht : rel.tag ≠ []
      · rw [if_pos ht]
        simp [okReleases, List.filterMap_cons, hpg, ht]
      · rw [if_neg ht]
        simp [okReleases, List.filterMap_cons, hpg, ht]

/-- Claim C2 (amended): the old collection is always discarded, never
merged — the decode result is independent of it; a malformed payload
text leaves the collection empty with a failure report; but a record
that fails to decode mid-way leaves the collection holding exactly the
releases decoded before the failure (a possibly non-empty, possibly
incomplete run), together with the failure report. -/
theorem claim_parse_failure_state (old : List Release) (good : List Json) (bad : Json)
    (rest : List Json) (hg : ∀ g ∈ good, exOk (processRelease g) = true)
    (hb : exOk (processRelease bad) = false) :
    parse_releases old (some (Json.arr (good ++ bad :: rest))) = (false, okReleases good)
  ∧ parse_releases old none = (false, [])
  ∧ ∀ (old2 : List Release) (input : Option Json),
      parse_releases old input = parse_releases old2 input := by
  refine ⟨?_, rfl, fun _ _ => rfl⟩
  simp only [parse_releases, Json.elements]
  rw [relLoop_good_append bad rest hb good hg []]
  simp

theorem claim_parse_failure_state_witness :
    parse_releases [c2_old] (some (Json.arr ([c2_j1] ++ c2_j2 :: []))) = (false, okReleases [c2_j1])
  ∧ parse_releases [c2_old] none = (false, []) :=
  ⟨(claim_parse_failure_state [c2_old] [c2_j1] c2_j2 [] (by decide) (by decide)).1,
    (claim_parse_failure_state [c2_old] [c2_j1] c2_j2 [] (by decide) (by decide)).2.1⟩

/-- Claim C2 as stated is false on the code: on a payload holding a
decodable record `v1`, an undecodable record, and another decodable
record `v3`, the decode reports failure but leaves the collection
holding `[v1]` — neither empty, nor the old collection, nor the full
run of decodable records: a proper partial result. -/
theorem claim_parse_partial_cex :
    parse_releases [c2_old] (some c2_payload) = (false, [c2_rel1])
  ∧ exOk (processRelease c2_j3) = true
  ∧ okReleases [c2_j1, c2_j2, c2_j3] = [c2_rel1, ⟨cs "v3", [], []⟩]
  ∧ [c2_rel1] ≠ ([] : List Release)
  ∧ [c2_rel1] ≠ [c2_old]
  ∧ [c2_rel1] ≠ okReleases [c2_j1, c2_j2, c2_j3] := by decide

/-- Every asset accumulated by the asset loop has a non-empty name. -/
theorem assetLoop_names :
    ∀ (js : List Json) (acc res : List Asset), assetLoop js acc = .ok res →
      (∀ a ∈ acc, a.name ≠ []) → ∀ a ∈ res, a.name ≠ [] := by
  intro js
  induction js with
  | nil =>
    intro acc res h hacc
    simp only [assetLoop] at h
    injection h with h2
    subst h2
    exact hacc
  | cons a rest ih =>
    intro acc res h hacc
    simp only [assetLoop, bind, Except.bind] at h
    cases hpa : processAsset a with
    | error u => rw [hpa] at h; cases h
    | ok asset =>
      rw [hpa] at h
      refine ih _ res h ?_
      by_cases hn : asset.name ≠ []
      · rw [if_pos hn]
        intro x hx
        rcases List.mem_append.1 hx with hx | hx
        · exact hacc x hx
        · rcases List.mem_singleton.1 hx with rfl
          exact hn
      · rw [if_neg hn]
        exact hacc

/-- A successfully decoded release only carries assets with non-empty
names. -/
theorem processRelease_assets_names {r : Json} {rel : Release}
    (h : processRelease r = .ok rel) : ∀ a ∈ rel.assets, a.name ≠ [] := by
  simp only [processRelease, bind, Except.bind] at h
  cases h1 : jvalueStr r (cs "tag_name") with
  | error u => simp only [h1] at h; exact Except.noConfusion h
  | ok tag =>
    simp only [h1] at h
    cases h2 : jvalueStr r (cs "published_at") with
    | error u => simp only [h2] at h; exact Except.noConfusion h
    | ok pub =>
      simp only [h2] at h
      by_cases hcond : (jcontains r (cs "assets") && (jget r (cs "assets")).is_arr) = true
      · rw [if_pos hcond] at h
        cases h3 : assetLoop (jget r (cs "assets")).elements [] with
        | error u => simp only [h3] at h; exact Except.noConfusion h
        | ok assets =>
          simp only [h3, pure, Except.pure] at h
          injection h with h4
          subst h4
          exact assetLoop_names _ [] assets h3 (by simp)
      · rw [if_neg hcond] at h
        simp only [pure, Except.pure] at h
        injection h with h4
        subst h4
        simp

/-- The release loop preserves the invariant that every stored release
has a non-empty tag and only assets with non-empty names. -/
theorem relLoop_inv :
    ∀ (es : List Json) (acc : List Release),
      (∀ rel ∈ acc, rel.tag ≠ [] ∧ ∀ a ∈ rel.assets, a.name ≠ []) →
      ∀ rel ∈ (relLoop es acc).2, rel.tag ≠ [] ∧ ∀ a ∈ rel.assets, a.name ≠ [] := by
  intro es
  induction es with
  | nil => intro acc hacc; simpa [relLoop] using hacc
  | cons r rest ih =>
    intro acc hacc
    cases hpr : processRelease r with
    | error u => simpa [relLoop, hpr] using hacc
    | ok rel =>
      rw [relLoop, hpr]
      apply ih
      intro rel2 hmem
      by_cases ht : rel.tag ≠ []
      · rw [if_pos ht] at hmem
        rcases List.mem_append.1 hmem with hm | hm
        · exact hacc rel2 hm
        · rcases List.mem_singleton.1 hm with rfl
          exact ⟨ht, processRelease_assets_names hpr⟩
      · rw [if_neg ht] at hmem
        exact hacc rel2 hmem

/-- Claim C10: after every decoder run, every stored release has a
non-empty tag and every stored asset a non-empty name; a decoded record
with a missing or empty tag, and a decoded asset record with a missing
or empty name, are silently dropped (the loop proceeds unchanged), not
turned into a decode failure. -/
theorem claim_collection_invariant (old : List Release) (input : Option Json) :
    (∀ rel ∈ (parse_releases old input).2, rel.tag ≠ [] ∧ ∀ a ∈ rel.assets, a.name ≠ [])
  ∧ (∀ (r : Json) (rest : List Json) (acc : List Release) (rel : Release),
       processRelease r = .ok rel → rel.tag = [] →
       relLoop (r :: rest) acc = relLoop rest acc)
  ∧ (∀ (a : Json) (as : List Json) (acc : List Asset) (asset : Asset),
       processAsset a = .ok asset → asset.name = [] →
       assetLoop (a :: as) acc = assetLoop as acc) := by
  refine ⟨?_, ?_, ?_⟩
  · intro rel hmem
    cases input with
    | none => simp [parse_releases] at hmem
    | some j => exact relLoop_inv j.elements [] (by simp) rel hmem
  · intro r rest acc rel h ht
    simp [relLoop, h, ht]
  · intro a as acc asset h hn
    simp [assetLoop, bind, Except.bind, h, hn]

theorem claim_collection_invariant_witness :
    relLoop [Json.obj []] [] = relLoop [] [] :=
  (claim_collection_invariant [] none).2.1 (Json.obj []) [] [] ⟨[], [], []⟩ rfl rfl
